import Mathlib

/-!
Verification of the wavlib WAV-audio library (src/wavlib.h) against its
natural-language specification.

The embedding is byte-level and value-level:
* byte streams are modelled as `List Nat` with each element below 256;
* the fixed-width C++ integers (`uint16_t`, `uint32_t`) are modelled as `Nat`
  with explicit `% 2 ^ 16` / `% 2 ^ 32` wherever C++ arithmetic can wrap;
* typed samples (`T`, a fixed-width signed integer of `w` bytes) are modelled
  as `Int` together with the two's-complement conversions `toSigned` /
  `toUnsigned`;
* the `double` arithmetic of `resample` and `convertSample` is modelled as
  exact rational arithmetic (`ℚ`); for the widths the library supports
  (1, 2 and 4 byte samples) every quantity appearing in the verified claims
  is exactly representable in an IEEE double, so the idealisation is faithful
  on those claims;
* `std::ifstream` is modelled as a position plus a fail flag: a read returns
  the available bytes, leaves the untouched suffix of the destination object
  unchanged, and clears the ok flag when fewer bytes than requested were
  available, exactly as `istream::read` does;
* C++ behaviour that is undefined (division by zero, out-of-range
  float-to-integer casts, out-of-bounds `memcpy`) is made total in the obvious
  way (`Nat` division by zero is zero, casts wrap, reads past the end of a
  buffer yield nothing); the theorems about such situations only assert which
  code path is taken, never the garbage value itself.
-/

namespace wav

/-- Little-endian decoding of a byte list into a natural number;
models reading the bytes of a multi-byte unsigned integer. -/
def leDecode : List Nat → Nat
  | [] => 0
  | b :: bs => b + 256 * leDecode bs

/-- Little-endian encoding of a natural number into `w` bytes;
models the in-memory representation of a `w`-byte unsigned integer. -/
def leEncode : Nat → Nat → List Nat
  | 0, _ => []
  | w + 1, v => v % 256 :: leEncode w (v / 256)

/-- Two bytes, little endian: the layout of a `uint16_t` field. -/
def le16 (v : Nat) : List Nat := leEncode 2 v

/-- Four bytes, little endian: the layout of a `uint32_t` field. -/
def le32 (v : Nat) : List Nat := leEncode 4 v

/-- Reinterpret the unsigned value of a `w`-byte memory cell as the value of
the signed `w`-byte integer with the same bytes (two's complement). -/
def toSigned (w : Nat) (v : Nat) : Int :=
  if v < 2 ^ (8 * w - 1) then (v : Int) else (v : Int) - 2 ^ (8 * w)

/-- Unsigned `w`-byte memory cell holding the two's-complement bytes of the
signed value `v` (reduction modulo `2 ^ (8 w)`). -/
def toUnsigned (w : Nat) (v : Int) : Nat := (v % (2 ^ (8 * w) : Int)).toNat

/-- Conversion of an integer-valued `double` to the signed `w`-byte sample
type `T`, as performed by `static_cast<T>` on the result of `std::round`.
In-range values are preserved; out-of-range values (undefined behaviour in
C++) are made total by two's-complement wrapping. -/
def castSigned (w : Nat) (v : Int) : Int := toSigned w (toUnsigned w v)

/-- Overwrite `bs.length` bytes of `buf` starting at offset `off`; models
`memcpy(buf + off, bs, bs.length)` for an in-bounds write. -/
def listWrite (buf : List Nat) (off : Nat) (bs : List Nat) : List Nat :=
  buf.take off ++ bs ++ buf.drop (off + bs.length)

/-- ASCII bytes of the RIFF chunk marker. -/
def riffTag : List Nat := [82, 73, 70, 70]

/-- ASCII bytes of the WAVE format marker. -/
def waveTag : List Nat := [87, 65, 86, 69]

/-- ASCII bytes of the fmt subchunk tag (with trailing space). -/
def fmtTag : List Nat := [102, 109, 116, 32]

/-- ASCII bytes of the data subchunk tag. -/
def dataTag : List Nat := [100, 97, 116, 97]

/-- Parse failure modes of `WavFile::read`, one per `cerr` diagnostic of the
source: RIFF/WAVE marker mismatch, missing fmt subchunk, missing data
subchunk. -/
inductive ParseError where
  | InvalidHeader : ParseError
  | MissingFmtChunk : ParseError
  | MissingDataChunk : ParseError
deriving DecidableEq

/-- Model of `struct WavFile`: header metadata plus the interleaved raw
sample bytes. All integer fields are unsigned (`uint16_t`/`uint32_t` in the
source); `raw_data` is the byte payload of the data subchunk. -/
structure WavFile where
  chunk_size : Nat
  num_channels : Nat
  sample_rate : Nat
  block_align : Nat
  bits_per_sample : Nat
  data_size : Nat
  num_samples : Nat
  raw_data : List Nat
deriving DecidableEq

/-- Mutable state of the subchunk-scanning loop of `WavFile::read`: stream
position, stream ok flag (conjunction of not-failbit), the two found flags and
the header fields collected so far. -/
structure RState where
  pos : Nat
  ok : Bool
  foundFmt : Bool
  foundData : Bool
  num_channels : Nat
  sample_rate : Nat
  block_align : Nat
  bits_per_sample : Nat
  data_size : Nat
  raw_data : List Nat
deriving DecidableEq

/-- Model of `file.read(&x, w)` into a `w`-byte unsigned integer whose
previous value is `prev`: returns the new value, the new position and the new
ok flag. A short read fills only the low bytes (the remaining bytes of the
destination keep their previous contents) and clears the ok flag; a read on an
already failed stream does nothing. -/
def fread (data : List Nat) (pos : Nat) (ok : Bool) (w : Nat) (prev : Nat) :
    Nat × Nat × Bool :=
  if ok then
    let bs := (data.drop pos).take w
    (leDecode (bs ++ (leEncode w prev).drop bs.length), pos + bs.length,
      decide (bs.length = w))
  else (prev, pos, false)

/-- Model of `file.seekg(off, std::ios::cur)` for a nonnegative offset:
advances the position when the stream is ok (seeking past the end of an
`ifstream` succeeds), does nothing on a failed stream. -/
def fseek (pos : Nat) (ok : Bool) (off : Nat) : Nat × Bool :=
  if ok then (pos + off, true) else (pos, false)

/-- The subchunk-scanning loop of `WavFile::read` (lines 97-129 of the
source), fuel-indexed: while the stream is ok and one of the two subchunks is
still missing, read a 4-byte tag (breaking on a short read), read the 4-byte
subchunk length, and dispatch on the tag exactly as the source does. -/
def rloop (data : List Nat) : Nat → RState → RState
  | 0, st => st
  | fuel + 1, st =>
    if st.ok = true ∧ (st.foundFmt = false ∨ st.foundData = false) then
      let tagBs := (data.drop st.pos).take 4
      if tagBs.length < 4 then st
      else
        let pos1 := st.pos + 4
        let r1 := fread data pos1 true 4 0
        let size := r1.1
        let pos2 := r1.2.1
        let ok2 := r1.2.2
        if tagBs = fmtTag then
          let r2 := fread data pos2 ok2 2 0
          let r3 := fread data r2.2.1 r2.2.2 2 st.num_channels
          let r4 := fread data r3.2.1 r3.2.2 4 st.sample_rate
          let s5 := fseek r4.2.1 r4.2.2 4
          let r6 := fread data s5.1 s5.2 2 st.block_align
          let r7 := fread data r6.2.1 r6.2.2 2 st.bits_per_sample
          let s8 := if 16 < size then fseek r7.2.1 r7.2.2 (size - 16)
                    else (r7.2.1, r7.2.2)
          rloop data fuel { st with
            pos := s8.1, ok := s8.2, foundFmt := true,
            num_channels := r3.1, sample_rate := r4.1,
            block_align := r6.1, bits_per_sample := r7.1 }
        else if tagBs = dataTag then
          let r0 := st.raw_data.take size ++
            List.replicate (size - st.raw_data.length) 0
          if ok2 then
            let bs := (data.drop pos2).take size
            rloop data fuel { st with
              pos := pos2 + bs.length, ok := decide (bs.length = size),
              foundData := true, data_size := size,
              raw_data := bs ++ r0.drop bs.length }
          else
            rloop data fuel { st with
              ok := false, foundData := true, data_size := size,
              raw_data := r0 }
        else
          let s3 := fseek pos2 ok2 size
          rloop data fuel { st with pos := s3.1, ok := s3.2 }
    else st

/-- Model of `WavFile::read` (lines 71-142): validate the RIFF/WAVE header,
scan subchunks, then report a missing fmt or data subchunk, or succeed with
`num_samples = data_size / block_align`. The source performs that division
unguarded; a zero `block_align` is undefined behaviour in C++ and is modelled
by Lean's total division (`n / 0 = 0`). -/
def WavFile.read (data : List Nat) : Except ParseError WavFile :=
  if data.take 4 ≠ riffTag then .error .InvalidHeader
  else
    let cs := leDecode ((data.drop 4).take 4)
    if (data.drop 8).take 4 ≠ waveTag then .error .InvalidHeader
    else
      let st0 : RState :=
        { pos := 12, ok := true, foundFmt := false, foundData := false,
          num_channels := 0, sample_rate := 0, block_align := 0,
          bits_per_sample := 0, data_size := 0, raw_data := [] }
      let st := rloop data (data.length + 1) st0
      if st.foundFmt = false then .error .MissingFmtChunk
      else if st.foundData = false then .error .MissingDataChunk
      else .ok
        { chunk_size := cs, num_channels := st.num_channels,
          sample_rate := st.sample_rate, block_align := st.block_align,
          bits_per_sample := st.bits_per_sample, data_size := st.data_size,
          num_samples := st.data_size / st.block_align,
          raw_data := st.raw_data }

/-- Model of `WavFile::save` (lines 145-174) as the byte stream it writes:
the canonical 44-byte two-subchunk layout. The stored `chunk_size` is written
verbatim; `block_align` and the byte rate are recomputed from `num_channels`
and `bits_per_sample` with `uint16_t`/`uint32_t` wrapping; exactly `data_size`
bytes of `raw_data` are written. -/
def WavFile.save (wf : WavFile) : List Nat :=
  riffTag ++ le32 wf.chunk_size ++ waveTag ++
  fmtTag ++ le32 16 ++ le16 1 ++
  le16 wf.num_channels ++ le32 wf.sample_rate ++
  le32 ((wf.sample_rate * ((wf.num_channels * (wf.bits_per_sample / 8)) % 2 ^ 16)) % 2 ^ 32) ++
  le16 ((wf.num_channels * (wf.bits_per_sample / 8)) % 2 ^ 16) ++
  le16 wf.bits_per_sample ++
  dataTag ++ le32 wf.data_size ++ wf.raw_data.take wf.data_size

/-- Byte encoding of one subchunk: 4-byte tag, 4-byte little-endian length,
then the payload. -/
def chunkBytes (tag : List Nat) (body : List Nat) : List Nat :=
  tag ++ le32 body.length ++ body

/-- Byte encoding of a sequence of subchunks. -/
def chunksBytes : List (List Nat × List Nat) → List Nat
  | [] => []
  | c :: rest => chunkBytes c.1 c.2 ++ chunksBytes rest

/-- The 16-byte body of a PCM fmt subchunk with the given field values. -/
def fmtBody (af nc sr br ba bps : Nat) : List Nat :=
  le16 af ++ le16 nc ++ le32 sr ++ le32 br ++ le16 ba ++ le16 bps

/-- Model of `struct WavData<T>` for a signed sample type `T` of `w` bytes:
deinterleaved typed audio data, with samples stored as their signed integer
values. -/
structure WavData where
  sample_rate : Nat
  num_channels : Nat
  bits_per_sample : Nat
  num_samples : Nat
  channel1 : List Int
  channel2 : List Int
deriving DecidableEq

/-- Model of the converting constructor `WavData(const WavFile&)`
(lines 193-224), for a sample type of `w` bytes: copy the metadata, and on a
bit-depth mismatch warn and return with both channel vectors empty (the
source's warn-and-continue behaviour); otherwise extract, for every frame
`i`, the `w` bytes at offset `i * block_align` into `channel1` and (when
stereo) the following `w` bytes into `channel2`. A `memcpy` that runs past
the end of `raw_data` (undefined behaviour in C++) is modelled by reading the
bytes that do exist and zeros beyond. -/
def WavData.ofWavFile (w : Nat) (wf : WavFile) : WavData :=
  let base : WavData :=
    { sample_rate := wf.sample_rate, num_channels := wf.num_channels,
      bits_per_sample := wf.bits_per_sample, num_samples := wf.num_samples,
      channel1 := [], channel2 := [] }
  if wf.bits_per_sample ≠ 8 * w then base
  else
    { base with
      channel1 := (List.range wf.num_samples).map fun i =>
        toSigned w (leDecode ((wf.raw_data.drop (i * wf.block_align)).take w)),
      channel2 :=
        if wf.num_channels = 2 then
          (List.range wf.num_samples).map fun i =>
            toSigned w (leDecode
              ((wf.raw_data.drop (i * wf.block_align + w)).take w))
        else [] }

/-- Model of `WavData::toWavFile` (lines 227-252), for a sample type of `w`
bytes: recompute `block_align`, `data_size` and `chunk_size` with the
`uint16_t`/`uint32_t` wrapping of the source, then interleave the channels
into a buffer of `data_size` zero bytes by per-frame `memcpy` writes. -/
def WavData.toWavFile (w : Nat) (d : WavData) : WavFile :=
  let ba := (d.num_channels * (d.bits_per_sample / 8)) % 2 ^ 16
  let ds := (d.num_samples * ba) % 2 ^ 32
  let raw := (List.range d.num_samples).foldl
    (fun buf i =>
      let buf1 := listWrite buf (i * ba) (leEncode w (toUnsigned w (d.channel1.getD i 0)))
      if d.num_channels = 2 then
        listWrite buf1 (i * ba + w) (leEncode w (toUnsigned w (d.channel2.getD i 0)))
      else buf1)
    (List.replicate ds 0)
  { chunk_size := (36 + ds) % 2 ^ 32, num_channels := d.num_channels,
    sample_rate := d.sample_rate, block_align := ba,
    bits_per_sample := d.bits_per_sample, data_size := ds,
    num_samples := d.num_samples, raw_data := raw }

/-- Model of `std::round` on an exact rational: round half away from zero. -/
def roundAway (q : ℚ) : Int :=
  if q < 0 then -(Int.floor (-q + 1 / 2)) else Int.floor (q + 1 / 2)

/-- The real-valued source position `src_index = i / ratio` of output index
`i` in `resample` (line 278). -/
def srcIndex (ratio : ℚ) (i : Nat) : ℚ := (i : ℚ) / ratio

/-- The lower interpolation index `index0 = uint32(floor(src_index))` of
`resample` (line 279). -/
def index0 (ratio : ℚ) (i : Nat) : Nat := (Int.floor (srcIndex ratio i)).toNat

/-- The upper interpolation index of `resample` (line 280), clamped to
`index0` when `index0 + 1` would reach `num_samples`. -/
def index1 (n : Nat) (ratio : ℚ) (i : Nat) : Nat :=
  if index0 ratio i + 1 < n then index0 ratio i + 1 else index0 ratio i

/-- The output length `uint32(num_samples * ratio)` of `resample`
(line 271); the product is nonnegative, so the truncating cast is a floor. -/
def newNumSamples (n : Nat) (ratio : ℚ) : Nat :=
  (Int.floor ((n : ℚ) * ratio)).toNat

/-- One interpolated output sample of `resample` (lines 278-285): linear
interpolation between the samples at `index0` and `index1`, rounded and cast
back to the `w`-byte sample type. -/
def interpAt (w : Nat) (ratio : ℚ) (n : Nat) (ch : List Int) (i : Nat) : Int :=
  let i0 := index0 ratio i
  let i1 := index1 n ratio i
  let frac : ℚ := srcIndex ratio i - (i0 : ℚ)
  let s0 : ℚ := (ch.getD i0 0 : ℚ)
  let s1 : ℚ := (ch.getD i1 0 : ℚ)
  castSigned w (roundAway ((1 - frac) * s0 + frac * s1))

/-- Model of `resample` (lines 266-295) for a `w`-byte sample type, with the
double arithmetic idealised as exact rational arithmetic: copy the input,
set the new rate and length, and overwrite every output index of `channel1`
(and of `channel2` when stereo; a mono input's `channel2` is left untouched)
with the interpolated sample. -/
def resample (w : Nat) (input : WavData) (new_sample_rate : Nat) : WavData :=
  let ratio : ℚ := (new_sample_rate : ℚ) / (input.sample_rate : ℚ)
  let newN := newNumSamples input.num_samples ratio
  { input with
    sample_rate := new_sample_rate,
    num_samples := newN,
    channel1 := (List.range newN).map
      (interpAt w ratio input.num_samples input.channel1),
    channel2 :=
      if input.num_channels = 2 then
        (List.range newN).map (interpAt w ratio input.num_samples input.channel2)
      else input.channel2 }

/-- The value `numeric_limits` minimum of a fixed-width integer type of `w`
bytes with the given signedness, as used by `convertSample`
(lines 305-324). -/
def typeMin (signed : Bool) (w : Nat) : Int :=
  if signed then -(2 ^ (8 * w - 1) : Int) else 0

/-- The value `numeric_limits` maximum of a fixed-width integer type of `w`
bytes with the given signedness. -/
def typeMax (signed : Bool) (w : Nat) : Int :=
  if signed then (2 ^ (8 * w - 1) : Int) - 1 else (2 ^ (8 * w) : Int) - 1

/-- Conversion of an integer-valued `double` to a fixed-width integer type of
`w` bytes and the given signedness, as performed by `static_cast<To>`;
in-range values are preserved, out-of-range values (undefined behaviour in
C++) are made total by wrapping. -/
def castTo (signed : Bool) (w : Nat) (v : Int) : Int :=
  if signed then castSigned w v else v % (2 ^ (8 * w) : Int)

/-- Model of `convertSample<From, To>` (lines 300-328) with the double
arithmetic idealised as exact rational arithmetic (exact for widths up to 4
bytes): full-range linear rescale from the representable range of `From`
(signedness `sf`, `wf` bytes) to that of `To` (signedness `st`, `wt` bytes),
rounded and cast to `To`. -/
def convertSample (sf : Bool) (wf : Nat) (st : Bool) (wt : Nat)
    (sample : Int) : Int :=
  let fromMin : ℚ := (typeMin sf wf : ℚ)
  let fromMax : ℚ := (typeMax sf wf : ℚ)
  let toMin : ℚ := (typeMin st wt : ℚ)
  let toMax : ℚ := (typeMax st wt : ℚ)
  let normalized : ℚ := ((sample : ℚ) - fromMin) / (fromMax - fromMin)
  castTo st wt (roundAway (normalized * (toMax - toMin) + toMin))

/-- Model of `reencode<From, To>` (lines 333-351): carry the metadata over,
set `bits_per_sample` to the width of `To`, and convert every sample of every
populated channel with `convertSample`; a mono input leaves `channel2` at its
default empty value. -/
def reencode (sf : Bool) (wf : Nat) (st : Bool) (wt : Nat)
    (input : WavData) : WavData :=
  { sample_rate := input.sample_rate, num_channels := input.num_channels,
    bits_per_sample := 8 * wt, num_samples := input.num_samples,
    channel1 := (List.range input.num_samples).map fun i =>
      convertSample sf wf st wt (input.channel1.getD i 0),
    channel2 :=
      if input.num_channels = 2 then
        (List.range input.num_samples).map fun i =>
          convertSample sf wf st wt (input.channel2.getD i 0)
      else [] }

/-- One past the last byte of `raw_data` read by the splitting constructor
for frame `i` (lines 214-222): the channel-1 `memcpy` covers bytes
`[i * block_align, i * block_align + w)` and, when stereo, the channel-2
`memcpy` covers the following `w` bytes. -/
def splitReadEnd (wf : WavFile) (w i : Nat) : Nat :=
  i * wf.block_align + (if wf.num_channels = 2 then w + w else w)

/-- Encoding a value into `w` bytes yields `w` bytes. -/
theorem leEncode_length (w v : Nat) : (leEncode w v).length = w := by
  induction w generalizing v with
  | zero => rfl
  | succ w ih => simp [leEncode, ih]

/-- Decoding an encoded value recovers it modulo the width. -/
theorem leDecode_leEncode (w v : Nat) :
    leDecode (leEncode w v) = v % 2 ^ (8 * w) := by
  induction w generalizing v with
  | zero => simp [leEncode, leDecode, Nat.mod_one]
  | succ w ih =>
    have h : 2 ^ (8 * (w + 1)) = 256 * 2 ^ (8 * w) := by ring
    rw [leEncode, leDecode, ih, h, Nat.mod_mul]

/-- A list of bytes decodes to a value below `2 ^ (8 * length)`. -/
theorem leDecode_lt (bs : List Nat) (hb : ∀ b ∈ bs, b < 256) :
    leDecode bs < 2 ^ (8 * bs.length) := by
  induction bs with
  | nil => simp [leDecode]
  | cons b bs ih =>
    have hb0 : b < 256 := hb b (by simp)
    have hrec : leDecode bs < 2 ^ (8 * bs.length) :=
      ih fun x hx => hb x (by simp [hx])
    have h : 2 ^ (8 * (b :: bs).length) = 256 * 2 ^ (8 * bs.length) := by
      simp [List.length_cons]; ring
    rw [leDecode, h]
    calc b + 256 * leDecode bs ≤ 255 + 256 * leDecode bs := by omega
    _ < 256 * (leDecode bs + 1) := by omega
    _ ≤ 256 * 2 ^ (8 * bs.length) := by
        exact Nat.mul_le_mul_left 256 hrec

/-- Re-encoding the decoded value of a byte list recovers the bytes. -/
theorem leEncode_leDecode (bs : List Nat) (hb : ∀ b ∈ bs, b < 256) :
    leEncode bs.length (leDecode bs) = bs := by
  induction bs with
  | nil => rfl
  | cons b bs ih =>
    have hb0 : b < 256 := hb b (by simp)
    have h1 : (b + 256 * leDecode bs) % 256 = b := by omega
    have h2 : (b + 256 * leDecode bs) / 256 = leDecode bs := by omega
    simp only [List.length_cons, leEncode, leDecode, h1, h2]
    rw [ih fun x hx => hb x (by simp [hx])]

/-- The two's-complement bytes of the signed reading of a `w`-byte cell are
the original cell contents. -/
theorem toUnsigned_toSigned (w v : Nat) (hw : 1 ≤ w) (hv : v < 2 ^ (8 * w)) :
    toUnsigned w (toSigned w v) = v := by
  have he : 8 * w - 1 + 1 = 8 * w := by omega
  have hsplit : 2 ^ (8 * w) = 2 * 2 ^ (8 * w - 1) := by
    rw [← pow_succ']
    exact congrArg (2 ^ ·) he.symm
  unfold toSigned toUnsigned
  by_cases h : v < 2 ^ (8 * w - 1)
  · simp only [h, if_true]
    rw [Int.emod_eq_of_lt (by positivity) (by exact_mod_cast hv)]
    simp
  · simp only [h, if_false]
    have hsub : ((v : Int) - 2 ^ (8 * w)) % 2 ^ (8 * w) = (v : Int) % 2 ^ (8 * w) := by
      simp [Int.sub_emod]
    rw [hsub, Int.emod_eq_of_lt (by positivity) (by exact_mod_cast hv)]
    simp

/-- The signed reading of the two's-complement bytes of an in-range signed
value is the value itself: in-range casts are the identity. -/
theorem castSigned_eq_self (w : Nat) (v : Int) (hw : 1 ≤ w)
    (hlo : -(2 ^ (8 * w - 1)) ≤ v) (hhi : v < 2 ^ (8 * w - 1)) :
    castSigned w v = v := by
  have he : 8 * w - 1 + 1 = 8 * w := by omega
  have hsplit : (2 : Int) ^ (8 * w) = 2 * 2 ^ (8 * w - 1) := by
    rw [← pow_succ']
    exact congrArg (2 ^ ·) he.symm
  unfold castSigned toUnsigned toSigned
  by_cases h0 : 0 ≤ v
  · rw [Int.emod_eq_of_lt h0 (by omega)]
    have hlt : v.toNat < 2 ^ (8 * w - 1) := by
      zify
      rwa [Int.toNat_of_nonneg h0]
    simp [hlt, Int.toNat_of_nonneg h0]
  · have hmod : v % 2 ^ (8 * w) = v + 2 ^ (8 * w) := by
      have h1 : (v + 2 ^ (8 * w)) % 2 ^ (8 * w) = v % 2 ^ (8 * w) := by
        simp [Int.add_emod]
      rw [← h1]
      exact Int.emod_eq_of_lt (by omega) (by omega)
    rw [hmod]
    have hge : ¬ ((v + 2 ^ (8 * w)).toNat < 2 ^ (8 * w - 1)) := by
      zify
      rw [Int.toNat_of_nonneg (by omega)]
      omega
    simp only [hge, if_false]
    rw [Int.toNat_of_nonneg (by omega)]
    omega

/-- Rounding an integer-valued rational returns the integer. -/
theorem roundAway_intCast (m : Int) : roundAway (m : ℚ) = m := by
  unfold roundAway
  have hhalf : Int.floor ((1 : ℚ) / 2) = 0 := by norm_num
  by_cases h : (m : ℚ) < 0
  · have : -(m : ℚ) + 1 / 2 = 1 / 2 + (-m : Int) := by push_cast ; ring
    rw [if_pos h, this, Int.floor_add_int, hhalf]
    omega
  · have : (m : ℚ) + 1 / 2 = 1 / 2 + (m : Int) := by ring
    rw [if_neg h, this, Int.floor_add_int, hhalf]
    omega

/-- Reading every position of a list with a default reconstructs the list. -/
theorem map_getD_range (l : List Int) (d : Int) :
    (List.range l.length).map (fun i => l.getD i d) = l := by
  apply List.ext_getElem
  · simp
  · intro i h1 h2
    have hi : i < l.length := h2
    simp only [List.getElem_map, List.getElem_range]
    exact List.getD_eq_getElem l d hi

/-- Claim C1, counterexample: serialize does NOT recompute the chunk_size
field as `36 + data_size`. The container below has stored `chunk_size = 0`
and `data_size = 1`; `save` writes the stored zero at offset 4 (the source
writes the `chunk_size` member verbatim at line 154), not
`le32 (36 + 1)`. -/
theorem C1_chunk_size_not_recomputed :
    ((WavFile.save
        { chunk_size := 0, num_channels := 1, sample_rate := 8000,
          block_align := 999, bits_per_sample := 8, data_size := 1,
          num_samples := 1, raw_data := [7] }).drop 4).take 4 ≠
      le32 (36 + 1) := by decide

/-- Claim C1, amended: for every WavContainer, serialize emits the canonical
44-byte two-subchunk layout in which byte_rate and block_align are recomputed
from num_channels and bits_per_sample (with the uint16/uint32 wrapping of the
source) rather than taken from the stored fields, while the 4-byte chunk_size
field at offset 4 is written verbatim from the stored chunk_size field (it is
not recomputed at write time; the Joiner `toWavFile` is what sets the stored
field to `36 + data_size`). -/
theorem C1_serialize_layout (wf : WavFile)
    (hlen : wf.raw_data.length = wf.data_size) :
    (WavFile.save wf).length = 44 + wf.data_size ∧
    (WavFile.save wf).take 4 = riffTag ∧
    ((WavFile.save wf).drop 4).take 4 = le32 wf.chunk_size ∧
    ((WavFile.save wf).drop 8).take 4 = waveTag ∧
    ((WavFile.save wf).drop 12).take 4 = fmtTag ∧
    ((WavFile.save wf).drop 28).take 4 =
      le32 ((wf.sample_rate *
        ((wf.num_channels * (wf.bits_per_sample / 8)) % 2 ^ 16)) % 2 ^ 32) ∧
    ((WavFile.save wf).drop 32).take 2 =
      le16 ((wf.num_channels * (wf.bits_per_sample / 8)) % 2 ^ 16) ∧
    ((WavFile.save wf).drop 36).take 4 = dataTag ∧
    ((WavFile.save wf).drop 40).take 4 = le32 wf.data_size ∧
    (WavFile.save wf).drop 44 = wf.raw_data := by
  have htake : wf.raw_data.take wf.data_size = wf.raw_data := by
    rw [← hlen]
    exact List.take_length wf.raw_data
  refine ⟨?_, ?_, ?_, ?_, ?_, ?_, ?_, ?_, ?_, ?_⟩ <;>
    simp [WavFile.save, le32, le16, leEncode, riffTag, waveTag, fmtTag,
      dataTag, htake, hlen] <;> omega

/-- Claim C1 witness: the layout theorem applied to a concrete container. -/
theorem C1_serialize_layout_witness :
    (WavFile.save
        { chunk_size := 40, num_channels := 1, sample_rate := 8000,
          block_align := 2, bits_per_sample := 16, data_size := 4,
          num_samples := 2, raw_data := [1, 2, 3, 4] }).length = 44 + 4 ∧
    ((WavFile.save
        { chunk_size := 40, num_channels := 1, sample_rate := 8000,
          block_align := 2, bits_per_sample := 16, data_size := 4,
          num_samples := 2, raw_data := [1, 2, 3, 4] }).drop 4).take 4 =
      le32 40 :=
  ⟨(C1_serialize_layout _ (by decide)).1,
   (C1_serialize_layout _ (by decide)).2.2.1⟩

/-- Reading position `i < n` of a map over `List.range n` with a default
gives the mapped value. -/
theorem getD_map_range (f : Nat → Int) (n i : Nat) (h : i < n) :
    ((List.range n).map f).getD i 0 = f i := by
  have hlen : i < ((List.range n).map f).length := by simpa using h
  rw [List.getD_eq_getElem _ _ hlen]
  simp

/-- The representable span of a `w`-byte integer type is `2 ^ (8 w) - 1`
for either signedness. -/
theorem typeMax_sub_typeMin (s : Bool) (w : Nat) (hw : 1 ≤ w) :
    ((typeMax s w : Int) : ℚ) - ((typeMin s w : Int) : ℚ)
      = (2 ^ (8 * w) : ℚ) - 1 := by
  have he : 8 * w - 1 + 1 = 8 * w := by omega
  have hsplit : (2 : ℚ) ^ (8 * w) = 2 ^ (8 * w - 1) * 2 := by
    rw [← pow_succ]
    exact congrArg (2 ^ ·) he.symm
  cases s with
  | false => simp [typeMin, typeMax]
  | true =>
    simp only [typeMin, typeMax, if_pos rfl]
    push_cast
    linarith

/-- The span of a `w`-byte integer type is positive. -/
theorem typeSpan_pos (w : Nat) (hw : 1 ≤ w) : (1 : ℚ) < 2 ^ (8 * w) := by
  calc (1 : ℚ) < 2 ^ 1 := by norm_num
  _ ≤ 2 ^ (8 * w) := by
      exact pow_le_pow_right₀ (by norm_num) (by omega)

/-- Casting the extreme values of a type to that same type is the
identity. -/
theorem castTo_extremes (s : Bool) (w : Nat) (hw : 1 ≤ w) :
    castTo s w (typeMin s w) = typeMin s w ∧
    castTo s w (typeMax s w) = typeMax s w := by
  have he : 8 * w - 1 + 1 = 8 * w := by omega
  have hsplit : (2 : Int) ^ (8 * w) = 2 ^ (8 * w - 1) * 2 := by
    rw [← pow_succ]
    exact congrArg (2 ^ ·) he.symm
  have hpos : (0 : Int) < 2 ^ (8 * w - 1) := by positivity
  cases s with
  | false =>
    constructor
    · simp [castTo, typeMin]
    · simp only [castTo, typeMax, Bool.false_eq_true, if_false]
      exact Int.emod_eq_of_lt (by omega) (by omega)
  | true =>
    constructor
    · simp only [castTo, typeMin, if_pos rfl]
      exact castSigned_eq_self w (-(2 ^ (8 * w - 1) : Int)) hw (le_refl _)
        (by omega)
    · simp only [castTo, typeMax, if_pos rfl]
      exact castSigned_eq_self w ((2 ^ (8 * w - 1) : Int) - 1) hw (by omega)
        (by omega)

/-- Claim C7: for `From` and `To` of equal signedness with `To` strictly
wider (widths in bytes, `To` at most the 4 bytes the library supports, so
that the double arithmetic of the source is exact), `convertSample` maps the
minimum of `From` to the minimum of `To` and the maximum of `From` to the
maximum of `To`; hence `reencode` maps minimum input samples to minimum
output samples and maximum inputs to maximum outputs (shown for `channel1`;
`channel2` is mapped by the same pointwise conversion). -/
theorem C7_requantize_range (s : Bool) (wfrom wto : Nat) (x : WavData)
    (i : Nat) (hwf : 1 ≤ wfrom) (hlt : wfrom < wto) (hwt : wto ≤ 4)
    (hi : i < x.num_samples) :
    convertSample s wfrom s wto (typeMin s wfrom) = typeMin s wto ∧
    convertSample s wfrom s wto (typeMax s wfrom) = typeMax s wto ∧
    (x.channel1.getD i 0 = typeMin s wfrom →
      (reencode s wfrom s wto x).channel1.getD i 0 = typeMin s wto) ∧
    (x.channel1.getD i 0 = typeMax s wfrom →
      (reencode s wfrom s wto x).channel1.getD i 0 = typeMax s wto) := by
  have hspan := typeMax_sub_typeMin s wfrom hwf
  have hpos := typeSpan_pos wfrom hwf
  have hne : ((typeMax s wfrom : Int) : ℚ) - ((typeMin s wfrom : Int) : ℚ) ≠ 0 := by
    rw [hspan]
    intro hzero
    have : (2 ^ (8 * wfrom) : ℚ) = 1 := by linarith
    rw [this] at hpos
    exact lt_irrefl 1 hpos
  have hmin : convertSample s wfrom s wto (typeMin s wfrom) = typeMin s wto := by
    simp only [convertSample, sub_self, zero_div, zero_mul, zero_add]
    rw [roundAway_intCast]
    exact (castTo_extremes s wto (by omega)).1
  have hmax : convertSample s wfrom s wto (typeMax s wfrom) = typeMax s wto := by
    simp only [convertSample, div_self hne, one_mul, sub_add_cancel]
    rw [roundAway_intCast]
    exact (castTo_extremes s wto (by omega)).2
  refine ⟨hmin, hmax, ?_, ?_⟩ <;> intro hx <;>
    simp only [reencode, getD_map_range _ _ _ hi, hx, hmin, hmax]

/-- Claim C7 witness: signed 1-byte to signed 2-byte conversion at the
extremes, and reencoding of a concrete channel holding them. -/
theorem C7_requantize_range_witness :
    convertSample true 1 true 2 (typeMin true 1) = typeMin true 2 ∧
    (reencode true 1 true 2
        { sample_rate := 8000, num_channels := 1, bits_per_sample := 8,
          num_samples := 2, channel1 := [-128, 127], channel2 := [] }).channel1.getD 0 0
      = typeMin true 2 :=
  ⟨(C7_requantize_range true 1 2
      { sample_rate := 8000, num_channels := 1, bits_per_sample := 8,
        num_samples := 2, channel1 := [-128, 127], channel2 := [] }
      0 (by decide) (by decide) (by decide) (by decide)).1,
   (C7_requantize_range true 1 2
      { sample_rate := 8000, num_channels := 1, bits_per_sample := 8,
        num_samples := 2, channel1 := [-128, 127], channel2 := [] }
      0 (by decide) (by decide) (by decide) (by decide)).2.2.1 (by decide)⟩

/-- At ratio 1 every interpolated sample is the source sample itself:
`src_index = i`, `frac = 0`, and rounding and casting the in-range source
sample back to its own type is the identity. -/
theorem interpAt_one (w n : Nat) (ch : List Int) (i : Nat) (hw : 1 ≤ w)
    (hin : i < n) (hlen : ch.length = n)
    (hr : ∀ s ∈ ch, -(2 ^ (8 * w - 1) : Int) ≤ s ∧ s < 2 ^ (8 * w - 1)) :
    interpAt w 1 n ch i = ch.getD i 0 := by
  have hsrc : srcIndex 1 i = (i : ℚ) := by simp [srcIndex]
  have hi0 : index0 1 i = i := by
    simp [index0, hsrc, Int.floor_natCast]
  have hmem : ch.getD i 0 ∈ ch := by
    have hilen : i < ch.length := by omega
    rw [List.getD_eq_getElem ch 0 hilen]
    exact List.getElem_mem hilen
  have hrng := hr (ch.getD i 0) hmem
  simp only [interpAt, hi0, hsrc, sub_self, sub_zero, one_mul, zero_mul,
    add_zero]
  rw [roundAway_intCast]
  exact castSigned_eq_self w _ hw hrng.1 hrng.2

/-- Claim C5: resampling a channel set to its own sample rate is the
identity: the ratio is exactly 1, so the output length equals the input
length and every output sample of `channel1` (and of `channel2` when stereo;
a mono container's `channel2` is simply carried over) equals the
corresponding original sample. Hypotheses: nonzero sample rate, channels of
the advertised length, and samples within the signed `w`-byte range (the
container invariant). -/
theorem C5_resample_identity (w : Nat) (x : WavData) (hw : 1 ≤ w)
    (hsr : x.sample_rate ≠ 0)
    (hlen1 : x.channel1.length = x.num_samples)
    (hr1 : ∀ s ∈ x.channel1,
      -(2 ^ (8 * w - 1) : Int) ≤ s ∧ s < 2 ^ (8 * w - 1))
    (hlen2 : x.num_channels = 2 → x.channel2.length = x.num_samples)
    (hr2 : ∀ s ∈ x.channel2,
      -(2 ^ (8 * w - 1) : Int) ≤ s ∧ s < 2 ^ (8 * w - 1)) :
    (resample w x x.sample_rate).num_samples = x.num_samples ∧
    (resample w x x.sample_rate).channel1 = x.channel1 ∧
    (resample w x x.sample_rate).channel2 = x.channel2 := by
  have hcast : ((x.sample_rate : ℚ)) ≠ 0 := Nat.cast_ne_zero.mpr hsr
  have hratio : ((x.sample_rate : ℚ)) / ((x.sample_rate : ℚ)) = 1 :=
    div_self hcast
  have hnewN : newNumSamples x.num_samples
      (((x.sample_rate : Nat) : ℚ) / ((x.sample_rate : Nat) : ℚ))
      = x.num_samples := by
    rw [hratio]
    simp [newNumSamples]
  have hch : ∀ (ch : List Int), ch.length = x.num_samples →
      (∀ s ∈ ch, -(2 ^ (8 * w - 1) : Int) ≤ s ∧ s < 2 ^ (8 * w - 1)) →
      (List.range (newNumSamples x.num_samples
          (((x.sample_rate : Nat) : ℚ) / ((x.sample_rate : Nat) : ℚ)))).map
        (interpAt w (((x.sample_rate : Nat) : ℚ) / ((x.sample_rate : Nat) : ℚ))
          x.num_samples ch) = ch := by
    intro ch hlen hr
    rw [hnewN, hratio]
    calc (List.range x.num_samples).map (interpAt w 1 x.num_samples ch)
        = (List.range x.num_samples).map (fun i => ch.getD i 0) := by
          apply List.ext_getElem
          · simp
          · intro i h1 h2
            have hi : i < x.num_samples := by simpa using h1
            simp only [List.getElem_map, List.getElem_range]
            exact interpAt_one w x.num_samples ch i hw hi hlen hr
    _ = ch := by
          rw [← hlen]
          exact map_getD_range ch 0
  refine ⟨?_, ?_, ?_⟩
  · simp only [resample]
    exact hnewN
  · simp only [resample]
    exact hch x.channel1 hlen1 hr1
  · simp only [resample]
    by_cases h2 : x.num_channels = 2
    · rw [if_pos h2]
      exact hch x.channel2 (hlen2 h2) hr2
    · rw [if_neg h2]

/-- Claim C5 witness: the identity theorem applied to a concrete mono
16-bit channel set at 8000 Hz. -/
theorem C5_resample_identity_witness :
    (resample 2
        { sample_rate := 8000, num_channels := 1, bits_per_sample := 16,
          num_samples := 4, channel1 := [0, 1000, -1000, 32767],
          channel2 := [] } 8000).num_samples = 4 ∧
    (resample 2
        { sample_rate := 8000, num_channels := 1, bits_per_sample := 16,
          num_samples := 4, channel1 := [0, 1000, -1000, 32767],
          channel2 := [] } 8000).channel1 = [0, 1000, -1000, 32767] :=
  ⟨(C5_resample_identity 2
      { sample_rate := 8000, num_channels := 1, bits_per_sample := 16,
        num_samples := 4, channel1 := [0, 1000, -1000, 32767], channel2 := [] }
      (by decide) (by decide) (by decide) (by decide) (by decide)
      (by decide)).1,
   (C5_resample_identity 2
      { sample_rate := 8000, num_channels := 1, bits_per_sample := 16,
        num_samples := 4, channel1 := [0, 1000, -1000, 32767], channel2 := [] }
      (by decide) (by decide) (by decide) (by decide) (by decide)
      (by decide)).2.1⟩

/-- Claim C6: for a source of at least one sample and any target rate, every
source index read by `resample` — `index0` and `index1`, used identically for
both channels by `interpAt` — is at most `num_samples - 1`, and `index1` is
exactly `min (index0 + 1) (num_samples - 1)`: at the boundary it is clamped
to `index0 = num_samples - 1`, so the last output sample repeats the last
input sample rather than reading out of bounds. -/
theorem C6_resample_index_bounds (n sr nsr i : Nat) (hsr : sr ≠ 0)
    (hn : 1 ≤ n) (hi : i < newNumSamples n ((nsr : ℚ) / (sr : ℚ))) :
    index0 ((nsr : ℚ) / (sr : ℚ)) i ≤ n - 1 ∧
    index1 n ((nsr : ℚ) / (sr : ℚ)) i ≤ n - 1 ∧
    index1 n ((nsr : ℚ) / (sr : ℚ)) i
      = min (index0 ((nsr : ℚ) / (sr : ℚ)) i + 1) (n - 1) := by
  by_cases hz : nsr = 0
  · exfalso
    rw [hz] at hi
    simp [newNumSamples] at hi
  · have hrpos : (0 : ℚ) < (nsr : ℚ) / (sr : ℚ) :=
      div_pos (by exact_mod_cast Nat.pos_of_ne_zero hz)
        (by exact_mod_cast Nat.pos_of_ne_zero hsr)
    set r : ℚ := (nsr : ℚ) / (sr : ℚ) with hrdef
    have hfloor_lt : (i : Int) < Int.floor ((n : ℚ) * r) := by
      have h0 : 0 ≤ Int.floor ((n : ℚ) * r) := by
        rw [Int.floor_nonneg]
        positivity
      unfold newNumSamples at hi
      omega
    have hiq : ((i : ℚ)) < (n : ℚ) * r := by
      have h1 : (i : Int) + 1 ≤ Int.floor ((n : ℚ) * r) := hfloor_lt
      have h2 : (((i : Int) + 1 : Int) : ℚ) ≤ (n : ℚ) * r := by
        rw [← Int.le_floor] at *
        exact h1
      push_cast at h2
      linarith
    have hsrclt : srcIndex r i < (n : ℚ) := by
      unfold srcIndex
      rw [div_lt_iff₀ hrpos]
      linarith [hiq]
    have hfl : Int.floor (srcIndex r i) < (n : Int) := by
      rw [Int.floor_lt]
      exact_mod_cast hsrclt
    have hfnn : 0 ≤ Int.floor (srcIndex r i) := by
      rw [Int.floor_nonneg]
      unfold srcIndex
      positivity
    have hi0 : index0 r i ≤ n - 1 := by
      unfold index0
      omega
    refine ⟨hi0, ?_, ?_⟩
    · unfold index1
      split
      · omega
      · exact hi0
    · unfold index1
      split
      · omega
      · omega

/-- Claim C6 witness: the bounds theorem applied to downsampling 4 samples
from 8000 Hz to 4000 Hz (output index 1 reads source indices 2 and 3,
within the 4-sample source). -/
theorem C6_resample_index_bounds_witness :
    index0 (((4000 : Nat) : ℚ) / ((8000 : Nat) : ℚ)) 1 ≤ 4 - 1 ∧
    index1 4 (((4000 : Nat) : ℚ) / ((8000 : Nat) : ℚ)) 1 ≤ 4 - 1 ∧
    index1 4 (((4000 : Nat) : ℚ) / ((8000 : Nat) : ℚ)) 1
      = min (index0 (((4000 : Nat) : ℚ) / ((8000 : Nat) : ℚ)) 1 + 1)
        (4 - 1) := by
  have hnew : newNumSamples 4 (((4000 : Nat) : ℚ) / ((8000 : Nat) : ℚ))
      = 2 := by
    have hq : ((4 : Nat) : ℚ) * (((4000 : Nat) : ℚ) / ((8000 : Nat) : ℚ))
        = ((2 : Int) : ℚ) := by
      norm_num
    unfold newNumSamples
    rw [hq, Int.floor_intCast]
    rfl
  exact C6_resample_index_bounds 4 8000 4000 1 (by decide) (by decide)
    (by rw [hnew]; decide)

/-- Writing the slice `raw[p .. p+m)` at offset `p` into a buffer whose
first `p` bytes already agree with `raw` extends the agreeing prefix by `m`
bytes and consumes `m` bytes of the tail. -/
theorem listWrite_slice_shape (raw Z : List Nat) (p m : Nat)
    (hpm : p + m ≤ raw.length) :
    listWrite (raw.take p ++ Z) p ((raw.drop p).take m)
      = raw.take (p + m) ++ Z.drop m := by
  have hA : (raw.take p).length = p := by
    rw [List.length_take]
    omega
  have hbs : ((raw.drop p).take m).length = m := by
    rw [List.length_take, List.length_drop]
    omega
  have h1 : (raw.take p ++ Z).take p = raw.take p := List.take_left' hA
  have h2 : (raw.take p ++ Z).drop (p + m) = Z.drop m := by
    rw [List.drop_append_eq_append_drop, hA,
      List.drop_eq_nil_of_le (show (raw.take p).length ≤ p + m from by
        rw [hA]; omega),
      show p + m - p = m from by omega, List.nil_append]
  unfold listWrite
  rw [hbs, h1, h2,
    show raw.take (p + m) = raw.take p ++ (raw.drop p).take m from
      List.take_add raw p m]

/-- The interleaving loop of `toWavFile`, abstracted: if each frame write
turns the state `first k frames of raw, then zeros` into the same state for
`k + 1`, then the whole fold over a zeroed buffer of `n * ba` bytes rebuilds
`raw`. -/
theorem join_raw_frames (raw : List Nat) (ba n : Nat)
    (hlen : raw.length = n * ba)
    (step : List Nat → Nat → List Nat)
    (hstep : ∀ k, k < n →
      step (raw.take (k * ba) ++ List.replicate ((n - k) * ba) 0) k
        = raw.take ((k + 1) * ba) ++ List.replicate ((n - (k + 1)) * ba) 0) :
    (List.range n).foldl step (List.replicate (n * ba) 0) = raw := by
  have key : ∀ k, k ≤ n →
      (List.range k).foldl step (List.replicate (n * ba) 0)
        = raw.take (k * ba) ++ List.replicate ((n - k) * ba) 0 := by
    intro k
    induction k with
    | zero =>
      intro _
      simp
    | succ k ih =>
      intro hk
      rw [List.range_succ, List.foldl_append, ih (by omega)]
      exact hstep k (by omega)
  have hfin := key n (le_refl n)
  rw [hfin, Nat.sub_self, Nat.zero_mul, List.replicate_zero, List.append_nil,
    ← hlen, List.take_length]

/-- Dropping one frame from the zero tail: the remaining tail shrinks by one
frame of `m` bytes. -/
theorem sub_succ_mul (n k m : Nat) : (n - k) * m - m = (n - (k + 1)) * m := by
  rw [Nat.sub_mul n k m, Nat.sub_mul n (k + 1) m, Nat.succ_mul]
  omega

/-- Claim C4: for a canonical-layout container with 1 or 2 channels,
matching bit depth (`bits_per_sample = 8 w`), `block_align` equal to
`num_channels * w`, `data_size = num_samples * block_align` and a raw byte
payload of exactly that length, joining the split channel set reproduces
`raw_data`, `block_align` and `data_size` exactly. The byte-range hypothesis
on `raw_data` and the `uint16`/`uint32` bounds are the container invariants
of the C++ fields. -/
theorem C4_split_join_inverse (w : Nat) (c : WavFile) (hw : 1 ≤ w)
    (hnc : c.num_channels = 1 ∨ c.num_channels = 2)
    (hbits : c.bits_per_sample = 8 * w)
    (hba : c.block_align = c.num_channels * w)
    (hds : c.data_size = c.num_samples * c.block_align)
    (hlen : c.raw_data.length = c.data_size)
    (hbytes : ∀ b ∈ c.raw_data, b < 256)
    (hba16 : c.block_align < 2 ^ 16)
    (hds32 : c.data_size < 2 ^ 32) :
    (WavData.toWavFile w (WavData.ofWavFile w c)).raw_data = c.raw_data ∧
    (WavData.toWavFile w (WavData.ofWavFile w c)).block_align
      = c.block_align ∧
    (WavData.toWavFile w (WavData.ofWavFile w c)).data_size = c.data_size := by
  have hd : WavData.ofWavFile w c =
      { sample_rate := c.sample_rate, num_channels := c.num_channels,
        bits_per_sample := c.bits_per_sample,
        num_samples := c.num_samples,
        channel1 := (List.range c.num_samples).map fun i =>
          toSigned w
            (leDecode ((c.raw_data.drop (i * c.block_align)).take w)),
        channel2 :=
          if c.num_channels = 2 then
            (List.range c.num_samples).map fun i =>
              toSigned w
                (leDecode ((c.raw_data.drop (i * c.block_align + w)).take w))
          else [] } := by
    simp [WavData.ofWavFile, hbits]
  have h8 : 8 * w / 8 = w := by omega
  have hbaval : (c.num_channels * (c.bits_per_sample / 8)) % 2 ^ 16
      = c.block_align := by
    rw [hbits, h8, ← hba]
    exact Nat.mod_eq_of_lt hba16
  have hdsval : (c.num_samples * c.block_align) % 2 ^ 32 = c.data_size := by
    rw [← hds]
    exact Nat.mod_eq_of_lt hds32
  have hlen' : c.raw_data.length = c.num_samples * c.block_align := by
    rw [hlen, hds]
  have hwba : w ≤ c.block_align := by
    rcases hnc with h1 | h2
    · rw [hba, h1, one_mul]
    · rw [hba, h2]
      omega
  -- bytes of any frame slice are bytes of raw_data
  have hsliceb : ∀ p m : Nat, ∀ b ∈ (c.raw_data.drop p).take m, b < 256 := by
    intro p m b hb
    exact hbytes b (List.drop_subset p c.raw_data (List.take_subset m _ hb))
  -- re-encoding a w-byte frame slice reproduces it
  have hround : ∀ p : Nat, p + w ≤ c.raw_data.length →
      leEncode w (toUnsigned w (toSigned w
        (leDecode ((c.raw_data.drop p).take w))))
        = (c.raw_data.drop p).take w := by
    intro p hp
    have hslen : ((c.raw_data.drop p).take w).length = w := by
      rw [List.length_take, List.length_drop]
      omega
    have hdec : leDecode ((c.raw_data.drop p).take w) < 2 ^ (8 * w) := by
      have := leDecode_lt _ (hsliceb p w)
      rwa [hslen] at this
    rw [toUnsigned_toSigned w _ hw hdec]
    have := leEncode_leDecode _ (hsliceb p w)
    rwa [hslen] at this
  refine ⟨?_, ?_, ?_⟩
  · -- raw_data round trip
    rw [hd]
    simp only [WavData.toWavFile]
    rw [hbaval, hdsval, hds]
    apply join_raw_frames c.raw_data c.block_align c.num_samples hlen'
    intro k hk
    have hkb : k * c.block_align + c.block_align
        ≤ c.num_samples * c.block_align := by
      rw [← Nat.succ_mul]
      exact Nat.mul_le_mul_right _ (by omega)
    have hgetD1 : ((List.range c.num_samples).map fun i =>
        toSigned w
          (leDecode ((c.raw_data.drop (i * c.block_align)).take w))).getD k 0
        = toSigned w
          (leDecode ((c.raw_data.drop (k * c.block_align)).take w)) :=
      getD_map_range _ _ _ hk
    rcases hnc with h1 | h2
    · -- mono frame: one write of w = block_align bytes
      have hbaw : c.block_align = w := by
        rw [hba, h1, one_mul]
      simp only [h1, hgetD1]
      rw [if_neg (by omega)]
      rw [hround (k * c.block_align) (by omega)]
      rw [listWrite_slice_shape c.raw_data _ (k * c.block_align) w (by omega)]
      rw [List.drop_replicate, hbaw,
        show k * w + w = (k + 1) * w from (Nat.succ_mul k w).symm,
        sub_succ_mul]
    · -- stereo frame: two adjacent writes of w bytes each
      have hbaw : c.block_align = w + w := by
        rw [hba, h2]
        omega
      have hgetD2 : ((List.range c.num_samples).map fun i =>
          toSigned w
            (leDecode ((c.raw_data.drop (i * c.block_align + w)).take w))).getD
            k 0
          = toSigned w
            (leDecode ((c.raw_data.drop (k * c.block_align + w)).take w)) :=
        getD_map_range _ _ _ hk
      simp only [h2, eq_self_iff_true, if_true, hgetD1, hgetD2]
      rw [hround (k * c.block_align) (by omega),
        hround (k * c.block_align + w) (by omega)]
      rw [listWrite_slice_shape c.raw_data _ (k * c.block_align) w (by omega)]
      rw [listWrite_slice_shape c.raw_data _ (k * c.block_align + w) w
        (by omega)]
      rw [List.drop_drop, List.drop_replicate, hbaw,
        show k * (w + w) + w + w = (k + 1) * (w + w) from by ring,
        sub_succ_mul]
  · -- block_align round trip
    rw [hd]
    simp only [WavData.toWavFile]
    exact hbaval
  · -- data_size round trip
    rw [hd]
    simp only [WavData.toWavFile]
    rw [hbaval]
    exact hdsval

/-- Claim C4 witness: the round-trip theorem applied to a concrete stereo
16-bit canonical container of two frames. -/
theorem C4_split_join_inverse_witness :
    (WavData.toWavFile 2 (WavData.ofWavFile 2
      { chunk_size := 44, num_channels := 2, sample_rate := 8000,
        block_align := 4, bits_per_sample := 16, data_size := 8,
        num_samples := 2,
        raw_data := [1, 2, 255, 255, 0, 128, 7, 0] })).raw_data
      = [1, 2, 255, 255, 0, 128, 7, 0] :=
  (C4_split_join_inverse 2
    { chunk_size := 44, num_channels := 2, sample_rate := 8000,
      block_align := 4, bits_per_sample := 16, data_size := 8,
      num_samples := 2, raw_data := [1, 2, 255, 255, 0, 128, 7, 0] }
    (by decide) (by decide) (by decide) (by decide) (by decide) (by decide)
    (by decide) (by decide) (by decide)).1

/-- Encoding into two bytes yields two bytes. -/
theorem le16_length (v : Nat) : (le16 v).length = 2 := leEncode_length 2 v

/-- Encoding into four bytes yields four bytes. -/
theorem le32_length (v : Nat) : (le32 v).length = 4 := leEncode_length 4 v

/-- A full-width read on an ok stream returns the decoded bytes, advances by
the width and keeps the stream ok. -/
theorem fread_exact (data : List Nat) (pos w prev : Nat) (mid post : List Nat)
    (hsuf : data.drop pos = mid ++ post) (hw : mid.length = w) :
    fread data pos true w prev = (leDecode mid, pos + w, true) := by
  simp only [fread, if_true]
  rw [hsuf, List.take_left' hw]
  have hdrop : (leEncode w prev).drop mid.length = [] :=
    List.drop_eq_nil_of_le (by rw [leEncode_length, hw])
  rw [hdrop, List.append_nil, hw]
  simp

/-- Seeking on an ok stream advances the position. -/
theorem fseek_ok (pos off : Nat) : fseek pos true off = (pos + off, true) :=
  rfl

/-- Dropping `c` more bytes after a suffix equation peels `c` bytes off the
chunk body. -/
theorem drop_chunk_body (data : List Nat) (p c : Nat) (body rest : List Nat)
    (hsuf : data.drop p = body ++ rest) (hc : c ≤ body.length) :
    data.drop (p + c) = body.drop c ++ rest := by
  rw [← List.drop_drop, hsuf,
    List.drop_append_eq_append_drop, Nat.sub_eq_zero_of_le hc,
    List.drop_zero]

/-- Splitting `m` bytes off the front of a body suffix. -/
theorem body_slice_split (body rest : List Nat) (c m : Nat) :
    body.drop c ++ rest = (body.drop c).take m ++ ((body.drop c).drop m ++ rest) := by
  rw [← List.append_assoc, List.take_append_drop]

/-- Two successive drops merge. -/
theorem drop_drop_add (body : List Nat) (c m : Nat) :
    (body.drop c).drop m = body.drop (c + m) := by
  rw [List.drop_drop, Nat.add_comm]

/-- One loop iteration over a subchunk with an unrecognized tag seeks past
its body and changes nothing else. -/
theorem rloop_step_other (data : List Nat) (fuel : Nat) (st : RState)
    (tag body rest : List Nat)
    (hok : st.ok = true)
    (hnd : st.foundFmt = false ∨ st.foundData = false)
    (hsuf : data.drop st.pos = chunkBytes tag body ++ rest)
    (htlen : tag.length = 4) (htf : tag ≠ fmtTag) (htd : tag ≠ dataTag)
    (hblen : body.length < 2 ^ 32) :
    rloop data (fuel + 1) st
      = rloop data fuel { st with
          pos := st.pos + 8 + body.length, ok := true } := by
  have htag : (data.drop st.pos).take 4 = tag := by
    rw [hsuf]
    unfold chunkBytes
    rw [List.append_assoc, List.append_assoc, List.take_left' htlen]
  have hsuf4 : data.drop (st.pos + 4) = le32 body.length ++ (body ++ rest) := by
    have := drop_chunk_body data st.pos 4 tag
      (le32 body.length ++ body ++ rest)
      (by rw [hsuf]; unfold chunkBytes; simp [List.append_assoc])
      (by omega)
    rw [this, List.drop_eq_nil_of_le (by omega), List.nil_append,
      List.append_assoc]
  have hsize : fread data (st.pos + 4) true 4 0
      = (body.length, st.pos + 8, true) := by
    have h := fread_exact data (st.pos + 4) 4 0 (le32 body.length)
      (body ++ rest) hsuf4 (le32_length _)
    rw [h, le32, leDecode_leEncode, Nat.mod_eq_of_lt hblen]
  simp only [rloop]
  rw [if_pos ⟨hok, hnd⟩, htag, if_neg (by omega), if_neg htf,
    if_neg htd, hsize]
  simp only [fseek, if_true]

/-- One loop iteration over a fmt subchunk of body length at least 16 reads
the header fields from the body, skips any extension bytes, and ends at the
next chunk boundary with the stream still ok. -/
theorem rloop_step_fmt (data : List Nat) (fuel : Nat) (st : RState)
    (body rest : List Nat)
    (hok : st.ok = true)
    (hnd : st.foundFmt = false ∨ st.foundData = false)
    (hsuf : data.drop st.pos = chunkBytes fmtTag body ++ rest)
    (hblen16 : 16 ≤ body.length) (hblen : body.length < 2 ^ 32) :
    rloop data (fuel + 1) st
      = rloop data fuel { st with
          pos := st.pos + 8 + body.length, ok := true, foundFmt := true,
          num_channels := leDecode ((body.drop 2).take 2),
          sample_rate := leDecode ((body.drop 4).take 4),
          block_align := leDecode ((body.drop 12).take 2),
          bits_per_sample := leDecode ((body.drop 14).take 2) } := by
  have htag : (data.drop st.pos).take 4 = fmtTag := by
    rw [hsuf]
    unfold chunkBytes
    rw [List.append_assoc, List.append_assoc,
      List.take_left' (show fmtTag.length = 4 from rfl)]
  have hsuf4 : data.drop (st.pos + 4)
      = le32 body.length ++ (body ++ rest) := by
    have h := drop_chunk_body data st.pos 4 fmtTag
      (le32 body.length ++ body ++ rest)
      (by rw [hsuf]; unfold chunkBytes; simp [List.append_assoc])
      (by decide)
    rw [h, List.drop_eq_nil_of_le (by decide), List.nil_append,
      List.append_assoc]
  have hsize : fread data (st.pos + 4) true 4 0
      = (body.length, st.pos + 8, true) := by
    have h := fread_exact data (st.pos + 4) 4 0 (le32 body.length)
      (body ++ rest) hsuf4 (le32_length _)
    rw [h, le32, leDecode_leEncode, Nat.mod_eq_of_lt hblen]
  have hsuf8 : data.drop (st.pos + 8) = body ++ rest := by
    have h := drop_chunk_body data (st.pos + 4) 4 (le32 body.length)
      (body ++ rest) hsuf4 (by simp [le32_length])
    rw [show st.pos + 4 + 4 = st.pos + 8 from by omega] at h
    rw [h, List.drop_eq_nil_of_le (by simp [le32_length]), List.nil_append]
  have hb : ∀ c m : Nat, c + m ≤ body.length →
      data.drop (st.pos + 8 + c)
        = (body.drop c).take m ++ ((body.drop c).drop m ++ rest) := by
    intro c m hcm
    rw [drop_chunk_body data (st.pos + 8) c body rest hsuf8 (by omega),
      body_slice_split]
  have hr2 : fread data (st.pos + 8) true 2 0
      = (leDecode (body.take 2), st.pos + 8 + 2, true) := by
    refine fread_exact data (st.pos + 8) 2 0 (body.take 2)
      (body.drop 2 ++ rest) ?_ ?_
    · rw [hsuf8, ← List.append_assoc, List.take_append_drop]
    · rw [List.length_take]
      omega
  have hr3 : fread data (st.pos + 8 + 2) true 2 st.num_channels
      = (leDecode ((body.drop 2).take 2), st.pos + 8 + 2 + 2, true) :=
    fread_exact data (st.pos + 8 + 2) 2 st.num_channels _ _
      (hb 2 2 (by omega))
      (by rw [List.length_take, List.length_drop]; omega)
  have hs4 : data.drop (st.pos + 8 + 2 + 2)
      = (body.drop 4).take 4 ++ ((body.drop 4).drop 4 ++ rest) := by
    rw [show st.pos + 8 + 2 + 2 = st.pos + 8 + 4 from by omega]
    exact hb 4 4 (by omega)
  have hr4 : fread data (st.pos + 8 + 2 + 2) true 4 st.sample_rate
      = (leDecode ((body.drop 4).take 4), st.pos + 8 + 2 + 2 + 4, true) :=
    fread_exact data (st.pos + 8 + 2 + 2) 4 st.sample_rate _ _ hs4
      (by rw [List.length_take, List.length_drop]; omega)
  have hs12 : data.drop (st.pos + 8 + 2 + 2 + 4 + 4)
      = (body.drop 12).take 2 ++ ((body.drop 12).drop 2 ++ rest) := by
    rw [show st.pos + 8 + 2 + 2 + 4 + 4 = st.pos + 8 + 12 from by omega]
    exact hb 12 2 (by omega)
  have hr6 : fread data (st.pos + 8 + 2 + 2 + 4 + 4) true 2 st.block_align
      = (leDecode ((body.drop 12).take 2),
          st.pos + 8 + 2 + 2 + 4 + 4 + 2, true) :=
    fread_exact data (st.pos + 8 + 2 + 2 + 4 + 4) 2 st.block_align _ _ hs12
      (by rw [List.length_take, List.length_drop]; omega)
  have hs14 : data.drop (st.pos + 8 + 2 + 2 + 4 + 4 + 2)
      = (body.drop 14).take 2 ++ ((body.drop 14).drop 2 ++ rest) := by
    rw [show st.pos + 8 + 2 + 2 + 4 + 4 + 2 = st.pos + 8 + 14 from by omega]
    exact hb 14 2 (by omega)
  have hr7 : fread data (st.pos + 8 + 2 + 2 + 4 + 4 + 2) true 2
      st.bits_per_sample
      = (leDecode ((body.drop 14).take 2),
          st.pos + 8 + 2 + 2 + 4 + 4 + 2 + 2, true) :=
    fread_exact data (st.pos + 8 + 2 + 2 + 4 + 4 + 2) 2 st.bits_per_sample
      _ _ hs14 (by rw [List.length_take, List.length_drop]; omega)
  simp only [rloop]
  rw [if_pos ⟨hok, hnd⟩, htag, if_neg (by decide), if_pos rfl]
  simp only [hsize, hr2, hr3, hr4, hr6, hr7, fseek, if_true]
  by_cases hgt : 16 < body.length
  · rw [if_pos hgt,
      show st.pos + 8 + 2 + 2 + 4 + 4 + 2 + 2 + (body.length - 16)
        = st.pos + 8 + body.length from by omega]
  · rw [if_neg hgt,
      show st.pos + 8 + 2 + 2 + 4 + 4 + 2 + 2
        = st.pos + 8 + body.length from by omega]

/-- One loop iteration over a data subchunk whose full declared payload is
available records the payload and its length and ends at the next chunk
boundary with the stream still ok. -/
theorem rloop_step_data (data : List Nat) (fuel : Nat) (st : RState)
    (payload rest : List Nat)
    (hok : st.ok = true)
    (hnd : st.foundFmt = false ∨ st.foundData = false)
    (hsuf : data.drop st.pos = chunkBytes dataTag payload ++ rest)
    (hplen : payload.length < 2 ^ 32) :
    rloop data (fuel + 1) st
      = rloop data fuel { st with
          pos := st.pos + 8 + payload.length, ok := true, foundData := true,
          data_size := payload.length, raw_data := payload } := by
  have htag : (data.drop st.pos).take 4 = dataTag := by
    rw [hsuf]
    unfold chunkBytes
    rw [List.append_assoc, List.append_assoc,
      List.take_left' (show dataTag.length = 4 from rfl)]
  have hsuf4 : data.drop (st.pos + 4)
      = le32 payload.length ++ (payload ++ rest) := by
    have h := drop_chunk_body data st.pos 4 dataTag
      (le32 payload.length ++ payload ++ rest)
      (by rw [hsuf]; unfold chunkBytes; simp [List.append_assoc])
      (by decide)
    rw [h, List.drop_eq_nil_of_le (by decide), List.nil_append,
      List.append_assoc]
  have hsize : fread data (st.pos + 4) true 4 0
      = (payload.length, st.pos + 8, true) := by
    have h := fread_exact data (st.pos + 4) 4 0 (le32 payload.length)
      (payload ++ rest) hsuf4 (le32_length _)
    rw [h, le32, leDecode_leEncode, Nat.mod_eq_of_lt hplen]
  have hsuf8 : data.drop (st.pos + 8) = payload ++ rest := by
    have h := drop_chunk_body data (st.pos + 4) 4 (le32 payload.length)
      (payload ++ rest) hsuf4 (by simp [le32_length])
    rw [show st.pos + 4 + 4 = st.pos + 8 from by omega] at h
    rw [h, List.drop_eq_nil_of_le (by simp [le32_length]), List.nil_append]
  have hbs : (data.drop (st.pos + 8)).take payload.length = payload := by
    rw [hsuf8]
    exact List.take_left payload rest
  have hdrop0 : (st.raw_data.take payload.length ++
      List.replicate (payload.length - st.raw_data.length) 0).drop
        payload.length = [] :=
    List.drop_eq_nil_of_le (by
      rw [List.length_append, List.length_take, List.length_replicate]
      omega)
  simp only [rloop]
  rw [if_pos ⟨hok, hnd⟩, htag, if_neg (by decide),
    if_neg (show dataTag ≠ fmtTag from by decide), if_pos rfl]
  simp only [hsize, hbs, if_true]
  simp [hdrop0]

/-- Once both subchunks have been found, the loop stops at once. -/
theorem rloop_done (data : List Nat) (fuel : Nat) (st : RState)
    (hf : st.foundFmt = true) (hd : st.foundData = true) :
    rloop data fuel st = st := by
  cases fuel with
  | zero => rfl
  | succ fuel =>
    simp only [rloop]
    rw [if_neg (by simp [hf, hd])]

/-- When fewer than four bytes remain the tag read comes up short and the
loop breaks; an exhausted fuel counter also returns the state unchanged. -/
theorem rloop_short (data : List Nat) (fuel : Nat) (st : RState)
    (hshort : (data.drop st.pos).length < 4) :
    rloop data fuel st = st := by
  cases fuel with
  | zero => rfl
  | succ fuel =>
    simp only [rloop]
    by_cases hc : st.ok = true ∧ (st.foundFmt = false ∨ st.foundData = false)
    · rw [if_pos hc, if_pos (by rw [List.length_take]; omega)]
    · rw [if_neg hc]

/-- Scanning any well-formed subchunk sequence containing no data tag leaves
`foundData` false, and sets `foundFmt` exactly when a fmt subchunk occurs in
the sequence (or was already found). Each subchunk needs a 4-byte tag, a body
below the u32 limit, and — when tagged fmt — a body of at least the 16 bytes
the fmt reader consumes. -/
theorem rloop_no_data (data : List Nat) (chunks : List (List Nat × List Nat))
    (fuel : Nat) (st : RState)
    (hok : st.ok = true) (hnd : st.foundData = false)
    (hsuf : data.drop st.pos = chunksBytes chunks)
    (hfuel : chunks.length < fuel)
    (hwf : ∀ c ∈ chunks, c.1.length = 4 ∧ c.1 ≠ dataTag ∧
      c.2.length < 2 ^ 32 ∧ (c.1 = fmtTag → 16 ≤ c.2.length)) :
    (rloop data fuel st).foundData = false ∧
    ((rloop data fuel st).foundFmt = true ↔
      st.foundFmt = true ∨ ∃ c ∈ chunks, c.1 = fmtTag) := by
  induction chunks generalizing fuel st with
  | nil =>
    have hempty : data.drop st.pos = [] := hsuf
    rw [rloop_short data fuel st (by rw [hempty]; simp)]
    simp [hnd]
  | cons c rest ih =>
    obtain ⟨f, rfl⟩ : ∃ f, fuel = f + 1 := ⟨fuel - 1, by omega⟩
    obtain ⟨hc4, hcd, hclt, hcf⟩ := hwf c (by simp)
    have hsufc : data.drop st.pos = chunkBytes c.1 c.2 ++ chunksBytes rest :=
      hsuf
    have hchunklen : (chunkBytes c.1 c.2).length = 8 + c.2.length := by
      unfold chunkBytes
      simp [le32_length, hc4]
      omega
    have hsuf' : data.drop (st.pos + 8 + c.2.length) = chunksBytes rest := by
      have h := drop_chunk_body data st.pos (8 + c.2.length)
        (chunkBytes c.1 c.2) (chunksBytes rest) hsufc (by omega)
      rw [show st.pos + (8 + c.2.length) = st.pos + 8 + c.2.length from by
        omega] at h
      rw [h, List.drop_eq_nil_of_le (by omega), List.nil_append]
    have hwf' : ∀ c' ∈ rest, c'.1.length = 4 ∧ c'.1 ≠ dataTag ∧
        c'.2.length < 2 ^ 32 ∧ (c'.1 = fmtTag → 16 ≤ c'.2.length) := by
      intro c' hc'
      exact hwf c' (by simp [hc'])
    by_cases hf : c.1 = fmtTag
    · rw [hf] at hsufc
      rw [rloop_step_fmt data f st c.2 (chunksBytes rest) hok (Or.inr hnd)
        hsufc (hcf hf) hclt]
      have hres := ih f { st with
          pos := st.pos + 8 + c.2.length, ok := true, foundFmt := true,
          num_channels := leDecode ((c.2.drop 2).take 2),
          sample_rate := leDecode ((c.2.drop 4).take 4),
          block_align := leDecode ((c.2.drop 12).take 2),
          bits_per_sample := leDecode ((c.2.drop 14).take 2) }
        rfl hnd hsuf' (by simp at hfuel; omega) hwf'
      refine ⟨hres.1, ?_⟩
      rw [hres.2]
      simp [hf]
    · rw [rloop_step_other data f st c.1 c.2 (chunksBytes rest) hok
        (Or.inr hnd) hsufc hc4 hf hcd hclt]
      have hres := ih f { st with
          pos := st.pos + 8 + c.2.length, ok := true }
        rfl hnd hsuf' (by simp at hfuel; omega) hwf'
      refine ⟨hres.1, ?_⟩
      rw [hres.2]
      simp [hf]

/-- Every encoded subchunk takes at least one byte, so a chunk list is never
longer than its byte encoding. -/
theorem chunksBytes_length_ge (chunks : List (List Nat × List Nat)) :
    chunks.length ≤ (chunksBytes chunks).length := by
  induction chunks with
  | nil => simp [chunksBytes]
  | cons c rest ih =>
    unfold chunksBytes chunkBytes
    simp only [List.length_cons, List.length_append, le32_length]
    omega

/-- Layout of the 12-byte RIFF/WAVE header in front of an arbitrary tail. -/
theorem header_layout (cs : Nat) (tail : List Nat) :
    (riffTag ++ le32 cs ++ waveTag ++ tail).take 4 = riffTag ∧
    ((riffTag ++ le32 cs ++ waveTag ++ tail).drop 4).take 4 = le32 cs ∧
    ((riffTag ++ le32 cs ++ waveTag ++ tail).drop 8).take 4 = waveTag ∧
    (riffTag ++ le32 cs ++ waveTag ++ tail).drop 12 = tail ∧
    (riffTag ++ le32 cs ++ waveTag ++ tail).length = 12 + tail.length := by
  have hle : le32 cs = [cs % 256, cs / 256 % 256, cs / 256 / 256 % 256,
      cs / 256 / 256 / 256 % 256] := rfl
  refine ⟨?_, ?_, ?_, ?_, ?_⟩ <;> simp [riffTag, waveTag, hle] <;> omega

/-- The fields of a 16-byte PCM fmt body sit at their canonical offsets. -/
theorem fmtBody_fields (af nc sr br ba bps : Nat) :
    (fmtBody af nc sr br ba bps).length = 16 ∧
    ((fmtBody af nc sr br ba bps).drop 2).take 2 = le16 nc ∧
    ((fmtBody af nc sr br ba bps).drop 4).take 4 = le32 sr ∧
    ((fmtBody af nc sr br ba bps).drop 12).take 2 = le16 ba ∧
    ((fmtBody af nc sr br ba bps).drop 14).take 2 = le16 bps :=
  ⟨rfl, rfl, rfl, rfl, rfl⟩

/-- Decoding an in-range 32-bit field recovers the value. -/
theorem leDecode_le32 (v : Nat) (hv : v < 2 ^ 32) : leDecode (le32 v) = v := by
  rw [le32, leDecode_leEncode]
  exact Nat.mod_eq_of_lt (by simpa using hv)

/-- Decoding an in-range 16-bit field recovers the value. -/
theorem leDecode_le16 (v : Nat) (hv : v < 2 ^ 16) : leDecode (le16 v) = v := by
  rw [le16, leDecode_leEncode]
  exact Nat.mod_eq_of_lt (by simpa using hv)

/-- Parsing a stream holding a data subchunk followed by a 16-byte PCM fmt
subchunk succeeds — chunk order is not assumed — and returns the fmt fields,
the payload, and `num_samples = data_size / block_align`. -/
theorem read_data_then_fmt (cs : Nat) (payload : List Nat)
    (af nc sr br ba bps : Nat) (hcs : cs < 2 ^ 32)
    (hpl : payload.length < 2 ^ 32) (hnc : nc < 2 ^ 16) (hsr : sr < 2 ^ 32)
    (hba : ba < 2 ^ 16) (hbps : bps < 2 ^ 16) :
    WavFile.read (riffTag ++ le32 cs ++ waveTag ++
        (chunkBytes dataTag payload ++
          chunkBytes fmtTag (fmtBody af nc sr br ba bps)))
      = Except.ok
          { chunk_size := cs, num_channels := nc, sample_rate := sr,
            block_align := ba, bits_per_sample := bps,
            data_size := payload.length,
            num_samples := payload.length / ba, raw_data := payload } := by
  obtain ⟨ha, hb, hc, hd, he⟩ := header_layout cs
    (chunkBytes dataTag payload ++ chunkBytes fmtTag (fmtBody af nc sr br ba bps))
  obtain ⟨hfl, hf2, hf4, hf12, hf14⟩ := fmtBody_fields af nc sr br ba bps
  set body := fmtBody af nc sr br ba bps with hbody
  set data := riffTag ++ le32 cs ++ waveTag ++
    (chunkBytes dataTag payload ++ chunkBytes fmtTag body) with hdata
  have hdlen : (chunkBytes dataTag payload).length = 8 + payload.length := by
    unfold chunkBytes
    simp [le32_length, dataTag]
    omega
  have hsuf2 : data.drop (12 + 8 + payload.length)
      = chunkBytes fmtTag body ++ [] := by
    rw [List.append_nil]
    have h := drop_chunk_body data 12 (8 + payload.length)
      (chunkBytes dataTag payload) (chunkBytes fmtTag body) hd (by omega)
    rw [show 12 + (8 + payload.length) = 12 + 8 + payload.length from by
      omega] at h
    rw [h, List.drop_eq_nil_of_le (by omega), List.nil_append]
  have hlen1 : 1 ≤ data.length := by
    rw [he]
    omega
  obtain ⟨f2, hf2fuel⟩ : ∃ f2, data.length = f2 + 1 :=
    ⟨data.length - 1, by omega⟩
  simp only [WavFile.read]
  rw [if_neg (fun hne => hne ha), if_neg (fun hne => hne hc), hb,
    leDecode_le32 cs hcs]
  rw [rloop_step_data data data.length _ payload (chunkBytes fmtTag body)
    rfl (Or.inr rfl) (by exact hd) hpl]
  rw [hf2fuel]
  rw [rloop_step_fmt data f2 _ body [] rfl (Or.inl rfl) (by exact hsuf2)
    (by omega) (by omega)]
  rw [rloop_done data f2 _ rfl rfl]
  rw [if_neg (by simp), if_neg (by simp)]
  rw [hf2, hf4, hf12, hf14, leDecode_le16 nc hnc, leDecode_le32 sr hsr,
    leDecode_le16 ba hba, leDecode_le16 bps hbps]

/-- Parsing a stream holding a 16-byte PCM fmt subchunk followed by a data
subchunk succeeds and returns the fmt fields, the payload, and
`num_samples = data_size / block_align`, with no guard on `block_align`. -/
theorem read_fmt_then_data (cs : Nat) (payload : List Nat)
    (af nc sr br ba bps : Nat) (hcs : cs < 2 ^ 32)
    (hpl : payload.length < 2 ^ 32) (hnc : nc < 2 ^ 16) (hsr : sr < 2 ^ 32)
    (hba : ba < 2 ^ 16) (hbps : bps < 2 ^ 16) :
    WavFile.read (riffTag ++ le32 cs ++ waveTag ++
        (chunkBytes fmtTag (fmtBody af nc sr br ba bps) ++
          chunkBytes dataTag payload))
      = Except.ok
          { chunk_size := cs, num_channels := nc, sample_rate := sr,
            block_align := ba, bits_per_sample := bps,
            data_size := payload.length,
            num_samples := payload.length / ba, raw_data := payload } := by
  obtain ⟨ha, hb, hc, hd, he⟩ := header_layout cs
    (chunkBytes fmtTag (fmtBody af nc sr br ba bps) ++
      chunkBytes dataTag payload)
  obtain ⟨hfl, hf2, hf4, hf12, hf14⟩ := fmtBody_fields af nc sr br ba bps
  set body := fmtBody af nc sr br ba bps with hbody
  set data := riffTag ++ le32 cs ++ waveTag ++
    (chunkBytes fmtTag body ++ chunkBytes dataTag payload) with hdata
  have hflen : (chunkBytes fmtTag body).length = 8 + body.length := by
    unfold chunkBytes
    simp [le32_length, fmtTag]
    omega
  have hsuf2 : data.drop (12 + 8 + body.length)
      = chunkBytes dataTag payload ++ [] := by
    rw [List.append_nil]
    have h := drop_chunk_body data 12 (8 + body.length)
      (chunkBytes fmtTag body) (chunkBytes dataTag payload) hd (by omega)
    rw [show 12 + (8 + body.length) = 12 + 8 + body.length from by
      omega] at h
    rw [h, List.drop_eq_nil_of_le (by omega), List.nil_append]
  have hlen1 : 1 ≤ data.length := by
    rw [he]
    omega
  obtain ⟨f2, hf2fuel⟩ : ∃ f2, data.length = f2 + 1 :=
    ⟨data.length - 1, by omega⟩
  simp only [WavFile.read]
  rw [if_neg (fun hne => hne ha), if_neg (fun hne => hne hc), hb,
    leDecode_le32 cs hcs]
  rw [rloop_step_fmt data data.length _ body (chunkBytes dataTag payload)
    rfl (Or.inl rfl) (by exact hd) (by omega) (by omega)]
  rw [hf2fuel]
  rw [rloop_step_data data f2 _ payload [] rfl (Or.inr rfl) (by exact hsuf2)
    hpl]
  rw [rloop_done data f2 _ rfl rfl]
  rw [if_neg (by simp), if_neg (by simp)]
  rw [hf2, hf4, hf12, hf14, leDecode_le16 nc hnc, leDecode_le32 sr hsr,
    leDecode_le16 ba hba, leDecode_le16 bps hbps]

/-- Claim C8, counterexample: the claim promises `MissingDataChunk` for
every valid-header stream without a data subchunk, but the source checks
`foundFmt` first (line 130), so a stream that also lacks a fmt subchunk — here
a bare 12-byte RIFF/WAVE header — fails with `MissingFmtChunk` instead. -/
theorem C8_bare_header_gives_fmt_error :
    WavFile.read (riffTag ++ le32 0 ++ waveTag)
      = Except.error ParseError.MissingFmtChunk ∧
    ¬ WavFile.read (riffTag ++ le32 0 ++ waveTag)
      = Except.error ParseError.MissingDataChunk := by
  constructor
  · rfl
  · intro h
    rw [show WavFile.read (riffTag ++ le32 0 ++ waveTag)
        = Except.error ParseError.MissingFmtChunk from rfl] at h
    simp at h

/-- Claim C8, amended: for every valid-header stream made of well-formed
subchunks none of which is a data subchunk, parse fails and returns no
container — with `MissingDataChunk` when a fmt subchunk is present, and with
`MissingFmtChunk` when fmt is absent as well (the fmt check precedes the data
check); moreover chunk order is not assumed: a stream presenting the data
subchunk before the fmt subchunk still parses successfully. -/
theorem C8_missing_data_chunk (cs : Nat)
    (chunks : List (List Nat × List Nat))
    (payload : List Nat) (af nc sr br ba bps : Nat)
    (hcs : cs < 2 ^ 32)
    (hwf : ∀ c ∈ chunks, c.1.length = 4 ∧ c.1 ≠ dataTag ∧
      c.2.length < 2 ^ 32 ∧ (c.1 = fmtTag → 16 ≤ c.2.length))
    (hpl : payload.length < 2 ^ 32) (hnc : nc < 2 ^ 16) (hsr : sr < 2 ^ 32)
    (hba : ba < 2 ^ 16) (hbps : bps < 2 ^ 16) :
    ((∃ c ∈ chunks, c.1 = fmtTag) →
      WavFile.read (riffTag ++ le32 cs ++ waveTag ++ chunksBytes chunks)
        = Except.error ParseError.MissingDataChunk) ∧
    ((¬ ∃ c ∈ chunks, c.1 = fmtTag) →
      WavFile.read (riffTag ++ le32 cs ++ waveTag ++ chunksBytes chunks)
        = Except.error ParseError.MissingFmtChunk) ∧
    WavFile.read (riffTag ++ le32 cs ++ waveTag ++
        (chunkBytes dataTag payload ++
          chunkBytes fmtTag (fmtBody af nc sr br ba bps)))
      = Except.ok
          { chunk_size := cs, num_channels := nc, sample_rate := sr,
            block_align := ba, bits_per_sample := bps,
            data_size := payload.length,
            num_samples := payload.length / ba, raw_data := payload } := by
  obtain ⟨ha, hb, hc, hd, he⟩ := header_layout cs (chunksBytes chunks)
  set data := riffTag ++ le32 cs ++ waveTag ++ chunksBytes chunks with hdata
  have hflags := rloop_no_data data chunks (data.length + 1)
    { pos := 12, ok := true, foundFmt := false, foundData := false,
      num_channels := 0, sample_rate := 0, block_align := 0,
      bits_per_sample := 0, data_size := 0, raw_data := [] }
    rfl rfl (by exact hd)
    (by have := chunksBytes_length_ge chunks; omega) hwf
  refine ⟨?_, ?_,
    read_data_then_fmt cs payload af nc sr br ba bps hcs hpl hnc hsr hba
      hbps⟩
  · intro hfmt
    have hff := hflags.2.mpr (Or.inr hfmt)
    have hfd := hflags.1
    simp only [WavFile.read]
    rw [if_neg (fun hne => hne ha), if_neg (fun hne => hne hc)]
    rw [if_neg (by simp [hff]), if_pos hfd]
  · intro hnof
    have hff : (rloop data (data.length + 1)
        { pos := 12, ok := true, foundFmt := false, foundData := false,
          num_channels := 0, sample_rate := 0, block_align := 0,
          bits_per_sample := 0, data_size := 0,
          raw_data := [] }).foundFmt = false := by
      have h := hflags.2
      simp only [Bool.false_eq_true, false_or] at h
      rw [← Bool.not_eq_true]
      rw [h]
      exact hnof
    simp only [WavFile.read]
    rw [if_neg (fun hne => hne ha), if_neg (fun hne => hne hc)]
    rw [if_pos hff]

/-- Claim C8 witness: the amended theorem applied to a concrete stream with
one fmt subchunk and no data subchunk (failing with MissingDataChunk) and to
a concrete data-before-fmt stream (parsing successfully). -/
theorem C8_missing_data_chunk_witness :
    WavFile.read (riffTag ++ le32 0 ++ waveTag ++
        chunksBytes [(fmtTag, fmtBody 1 1 8000 16000 2 16)])
      = Except.error ParseError.MissingDataChunk ∧
    WavFile.read (riffTag ++ le32 0 ++ waveTag ++
        (chunkBytes dataTag [9, 8, 7, 6] ++
          chunkBytes fmtTag (fmtBody 1 2 44100 176400 4 16)))
      = Except.ok
          { chunk_size := 0, num_channels := 2, sample_rate := 44100,
            block_align := 4, bits_per_sample := 16, data_size := 4,
            num_samples := 1, raw_data := [9, 8, 7, 6] } :=
  ⟨(C8_missing_data_chunk 0 [(fmtTag, fmtBody 1 1 8000 16000 2 16)]
      [9, 8, 7, 6] 1 2 44100 176400 4 16 (by decide) (by decide) (by decide)
      (by decide) (by decide) (by decide) (by decide)).1 (by decide),
   (C8_missing_data_chunk 0 [(fmtTag, fmtBody 1 1 8000 16000 2 16)]
      [9, 8, 7, 6] 1 2 44100 176400 4 16 (by decide) (by decide) (by decide)
      (by decide) (by decide) (by decide) (by decide)).2.2⟩

/-- Claim C9: `WavFile::read` computes `num_samples = data_size /
block_align` (line 140) with no guard that `block_align` is nonzero: a
stream whose fmt subchunk declares `block_align = 0` and which contains a
data subchunk parses successfully — no error is returned — and reaches the
division with divisor `block_align = 0` (undefined behaviour in C++; in this
embedding Nat division by zero yields 0). -/
theorem C9_zero_block_align_division (cs : Nat) (payload : List Nat)
    (af nc sr br bps : Nat) (hcs : cs < 2 ^ 32)
    (hpl : payload.length < 2 ^ 32) (hnc : nc < 2 ^ 16) (hsr : sr < 2 ^ 32)
    (hbps : bps < 2 ^ 16) :
    WavFile.read (riffTag ++ le32 cs ++ waveTag ++
        (chunkBytes fmtTag (fmtBody af nc sr br 0 bps) ++
          chunkBytes dataTag payload))
      = Except.ok
          { chunk_size := cs, num_channels := nc, sample_rate := sr,
            block_align := 0, bits_per_sample := bps,
            data_size := payload.length,
            num_samples := payload.length / 0, raw_data := payload } :=
  read_fmt_then_data cs payload af nc sr br 0 bps hcs hpl hnc hsr
    (by norm_num) hbps

/-- Claim C9 witness: a concrete stream with `block_align = 0` in its fmt
subchunk and a 4-byte data subchunk parses to a container rather than an
error. -/
theorem C9_zero_block_align_division_witness :
    WavFile.read (riffTag ++ le32 0 ++ waveTag ++
        (chunkBytes fmtTag (fmtBody 1 1 8000 0 0 16) ++
          chunkBytes dataTag [1, 2, 3, 4]))
      = Except.ok
          { chunk_size := 0, num_channels := 1, sample_rate := 8000,
            block_align := 0, bits_per_sample := 16, data_size := 4,
            num_samples := 4 / 0, raw_data := [1, 2, 3, 4] } :=
  C9_zero_block_align_division 0 [1, 2, 3, 4] 1 1 8000 0 16 (by decide)
    (by decide) (by decide) (by decide) (by decide)

/-- Claim C2: the spec demands that a data chunk whose declared length
exceeds the bytes remaining in the stream abort the parse (TruncatedStream)
with no container and no silent zero padding, but the source (lines 118-124)
never checks `gcount` after reading the payload: on the stream below — a
valid header, a 16-byte PCM fmt chunk, then a data chunk declaring 8 bytes
with only 4 present — `read` returns success with `raw_data` silently padded
to `[1, 2, 3, 4, 0, 0, 0, 0]` (the `resize` zeros survive the short read) and
`num_samples = 8 / 2 = 4`. This theorem evaluates the parser at that failing
input, exhibiting the divergence between code and claim. -/
theorem C2_truncated_data_is_zero_padded :
    WavFile.read (riffTag ++ le32 0 ++ waveTag ++
        chunkBytes fmtTag (fmtBody 1 1 8000 16000 2 16) ++
        dataTag ++ le32 8 ++ [1, 2, 3, 4])
      = Except.ok
          { chunk_size := 0, num_channels := 1, sample_rate := 8000,
            block_align := 2, bits_per_sample := 16, data_size := 8,
            num_samples := 4, raw_data := [1, 2, 3, 4, 0, 0, 0, 0] } := by
  rfl

/-- Claim C3: the spec mandates that a bit-depth mismatch be a hard
construction failure producing no usable channel set, but the source
(lines 200-205) only warns and returns normally: splitting an 8-bit container
with a 16-bit sample type yields a WavData object — handed downstream — whose
metadata is populated (`num_samples = 3`) while both channel vectors are
empty. This theorem evaluates the constructor at that failing input,
exhibiting the divergence between code and claim. -/
theorem C3_mismatch_returns_empty_object :
    WavData.ofWavFile 2
      { chunk_size := 0, num_channels := 1, sample_rate := 8000,
        block_align := 1, bits_per_sample := 8, data_size := 3,
        num_samples := 3, raw_data := [1, 2, 3] } =
    { sample_rate := 8000, num_channels := 1, bits_per_sample := 8,
      num_samples := 3, channel1 := [], channel2 := [] } := by decide

/-- Claim C10: the splitting constructor's per-frame reads (lines 206-223)
stay inside `raw_data` exactly under the unchecked precondition
`num_channels * w ≤ block_align` and `num_samples * block_align ≤ data_size`:
under that precondition every frame's read span ends inside the buffer, and a
stereo container whose stored `block_align` is smaller than `2 * w` with
`data_size = num_samples * block_align` makes the final frame's read run past
the end of `raw_data`. -/
theorem C10_split_read_bounds (wf : WavFile) (w i : Nat)
    (hnc : wf.num_channels = 1 ∨ wf.num_channels = 2)
    (hlen : wf.raw_data.length = wf.data_size)
    (hi : i < wf.num_samples) :
    (wf.num_channels * w ≤ wf.block_align ∧
        wf.num_samples * wf.block_align ≤ wf.data_size →
      splitReadEnd wf w i ≤ wf.raw_data.length) ∧
    (wf.num_channels = 2 ∧ wf.block_align < w + w ∧
        wf.data_size = wf.num_samples * wf.block_align →
      wf.raw_data.length < splitReadEnd wf w (wf.num_samples - 1)) := by
  have hmul : i * wf.block_align + wf.block_align
      ≤ wf.num_samples * wf.block_align := by
    rw [← Nat.succ_mul]
    exact Nat.mul_le_mul_right _ (by omega)
  have hlast : (wf.num_samples - 1) * wf.block_align + wf.block_align
      = wf.num_samples * wf.block_align := by
    rw [← Nat.succ_mul]
    exact congrArg (· * wf.block_align) (by omega)
  constructor
  · rintro ⟨hba, hds⟩
    rcases hnc with h1 | h2
    · rw [h1, one_mul] at hba
      simp [splitReadEnd, h1, hlen]
      omega
    · rw [h2] at hba
      simp [splitReadEnd, h2, hlen]
      omega
  · rintro ⟨h2, hba, hds⟩
    simp [splitReadEnd, h2, hlen]
    omega

/-- Claim C10 witness: the bounds theorem applied to a concrete in-bounds
stereo 16-bit container (first conjunct, frame 1) and to a concrete stereo
container with `block_align = 2 < 4 = 2 * w` (second conjunct), whose final
frame's read overruns the 8-byte buffer. -/
theorem C10_split_read_bounds_witness :
    splitReadEnd
      { chunk_size := 44, num_channels := 2, sample_rate := 8000,
        block_align := 4, bits_per_sample := 16, data_size := 8,
        num_samples := 2, raw_data := [10, 11, 12, 13, 14, 15, 16, 17] } 2 1 ≤ 8 ∧
    8 < splitReadEnd
      { chunk_size := 44, num_channels := 2, sample_rate := 8000,
        block_align := 2, bits_per_sample := 16, data_size := 8,
        num_samples := 4, raw_data := [10, 11, 12, 13, 14, 15, 16, 17] } 2 3 :=
  ⟨(C10_split_read_bounds
      { chunk_size := 44, num_channels := 2, sample_rate := 8000,
        block_align := 4, bits_per_sample := 16, data_size := 8,
        num_samples := 2, raw_data := [10, 11, 12, 13, 14, 15, 16, 17] }
      2 1 (by decide) (by decide) (by decide)).1 (by decide),
   (C10_split_read_bounds
      { chunk_size := 44, num_channels := 2, sample_rate := 8000,
        block_align := 2, bits_per_sample := 16, data_size := 8,
        num_samples := 4, raw_data := [10, 11, 12, 13, 14, 15, 16, 17] }
      2 3 (by decide) (by decide) (by decide)).2 (by decide)⟩

end wav
